import Mathlib

/-!
Verification of the teleprompter script-tracking core.

The development shallowly embeds the alignment engine of the repository:
the normalizer, the tokenizer, the Levenshtein-based word-similarity
scorer, the windowed anchor-matching cursor-advancement algorithm
(`advanceCursor`), and the tracker-session state machine
(`setScript` / `processSpeech` / `jumpTo` / `reset`).

Strings are modelled as `List Char`; the floating-point scores of the
source are modelled exactly as rationals (`ℚ`); the React refs and
state setters of the source are modelled as explicit record updates on
a session-state record, applied one event at a time (the engine is
single-threaded by design).
-/

namespace Teleprompter

/-- Whitespace predicate used by the splitting in the source
(`split(/\s+/)`, `trim()`). -/
def isWS (c : Char) : Bool :=
  c = ' ' || c = '\t' || c = '\n' || c = '\r'

/-- The apostrophe character, kept by the normalizer. -/
def apostrophe : Char := Char.ofNat 39

/-- Characters the normalizer keeps: the regex class `[a-z0-9']`. -/
def isKept (c : Char) : Bool :=
  decide (('a' ≤ c ∧ c ≤ 'z') ∨ ('0' ≤ c ∧ c ≤ '9') ∨ c = apostrophe)

/-- `normalize`: lowercase, then remove every character outside `[a-z0-9']`
(the source's `word.toLowerCase().replace(/[^a-z0-9']/g, "")`). -/
def normalize (w : List Char) : List Char :=
  (w.map Char.toLower).filter isKept

/-- State machine modelling JavaScript `text.split(/\s+/)`:
`mode = false` is "accumulating the current chunk `cur`" and
`mode = true` is "inside a whitespace separator run".  A chunk is
emitted when a separator run begins and at the end of the input, so a
leading (resp. trailing) separator run produces a leading (resp.
trailing) empty chunk, exactly as JavaScript `split` does. -/
def jsSplitGo : Bool → List Char → List Char → List (List Char)
  | _, cur, [] => [cur.reverse]
  | mode, cur, c :: rest =>
    if isWS c then
      if mode then jsSplitGo true [] rest
      else cur.reverse :: jsSplitGo true [] rest
    else jsSplitGo false (c :: cur) rest

/-- `text.split(/\s+/)` of the source. -/
def splitWs (l : List Char) : List (List Char) :=
  jsSplitGo false [] l

/-- `text.split(/\s+/).filter(Boolean)` of the source: the empty string is
falsy in JavaScript, so `filter(Boolean)` drops exactly the empty chunks. -/
def splitWords (l : List Char) : List (List Char) :=
  (splitWs l).filter (fun w => !w.isEmpty)

/-- JavaScript `String.prototype.trim`: strip whitespace from both ends. -/
def trim (l : List Char) : List Char :=
  ((l.dropWhile isWS).reverse.dropWhile isWS).reverse

/-- One word of the script together with its normalized comparison form
and its 0-based position (the source's `ScriptToken` interface). -/
structure ScriptToken where
  word : List Char
  normalized : List Char
  index : Nat
deriving DecidableEq, Repr

/-- `tokenize`: split the script text on whitespace runs, drop empty
fragments, and attach to every surviving word its normalized form and
its sequential position. -/
def tokenize (text : List Char) : List ScriptToken :=
  (splitWords text).enum.map (fun p => ⟨p.2, normalize p.2, p.1⟩)

/-- Specification-side description of "the whitespace-delimited non-empty
substrings of the text, in order": the maximal runs of non-whitespace
characters.  Used to state the tokenizer claim against an independent
definition. -/
def wordsOf (l : List Char) : List (List Char) :=
  match l with
  | [] => []
  | c :: rest =>
    if isWS c then wordsOf rest
    else (c :: rest.takeWhile (fun x => !isWS x)) ::
      wordsOf (rest.dropWhile (fun x => !isWS x))
termination_by l.length
decreasing_by
  · simp
  · have hlen : ∀ l' : List Char,
        (List.dropWhile (fun x => !isWS x) l').length ≤ l'.length := by
      intro l'
      induction l' with
      | nil => simp
      | cons a t ih =>
        rw [List.dropWhile_cons]
        split
        · simp only [List.length_cons]; omega
        · simp
    have := hlen rest
    simp only [List.length_cons]
    omega

/-- Inner recursion of the Levenshtein dynamic program: given the
distance function `g` for the tail of the first word (`g b'` is the
distance between that tail and `b'`), the head character `c` of the
first word and the tail's length `alen`, compute the distance between
the whole first word and the second word. -/
def levAux (g : List Char → Nat) (c : Char) (alen : Nat) : List Char → Nat
  | [] => alen + 1
  | d :: b =>
    if c = d then g b
    else 1 + min (g b) (min (levAux g c alen b) (g (d :: b)))

/-- The recurrence filled into the DP matrix by the source's
`levenshtein`: distance of two empty-prefix rows is the other length;
on equal characters the diagonal is taken directly, otherwise
1 + min of diagonal, left and upper neighbours (the source computes
`min(diag + 1, left + 1, up + 1)`, which is the same value). -/
def levMat : List Char → List Char → Nat
  | [], b => b.length
  | c :: a, b => levAux (levMat a) c a.length b

/-- The source's `levenshtein(a, b)`: early exits for equal and for
empty inputs, then the DP matrix. -/
def levenshtein (a b : List Char) : Nat :=
  if a = b then 0
  else if a.length = 0 then b.length
  else if b.length = 0 then a.length
  else levMat a b

/-- Inner recursion for the textbook edit-distance recurrence (used as
the specification-side definition of "the standard edit distance"). -/
def levSpecAux (g : List Char → Nat) (c : Char) (alen : Nat) : List Char → Nat
  | [] => alen + 1
  | d :: b =>
    min (g b + (if c = d then 0 else 1))
      (min (levSpecAux g c alen b + 1) (g (d :: b) + 1))

/-- Textbook Levenshtein distance: deletion and insertion cost 1,
substitution costs 1 unless the characters are equal. -/
def levSpec : List Char → List Char → Nat
  | [], b => b.length
  | c :: a, b => levSpecAux (levSpec a) c a.length b

/-- The source's `wordSimilarity`: 0 if either word is empty, 1 on exact
equality, otherwise `1 - levenshtein(a,b) / max(len a, len b)` (the
`maxLen == 0` early return of the source is unreachable there but kept). -/
def wordSimilarity (a b : List Char) : ℚ :=
  if a.isEmpty || b.isEmpty then 0
  else if a = b then 1
  else
    let maxLen := max a.length b.length
    if maxLen = 0 then 1
    else 1 - (levenshtein a b : ℚ) / (maxLen : ℚ)

/-- Forward search window size (source constant). -/
def LOOKAHEAD : Nat := 16

/-- Backward search window size (source constant). -/
def LOOKBEHIND : Nat := 2

/-- Minimum normalized length for a script token to be scored fuzzily
(source constant). -/
def MIN_MATCH_LEN : Nat := 2

/-- Score of aligning the anchor at offset `wi` of the window: for each
anchor position, the script token at `wi + ai` is compared to the
spoken word, skipping (adding 0 for) positions whose script token's
normalized form is shorter than `MIN_MATCH_LEN` unless the spoken word
equals it exactly; the sum is divided by the anchor length. -/
def offsetScore (windowTokens : List ScriptToken) (anchor : List (List Char))
    (wi : Nat) : ℚ :=
  ((List.range anchor.length).map (fun ai =>
      let scriptWord := ((windowTokens[wi + ai]?).map (fun t => t.normalized)).getD []
      let spoken := anchor.getD ai []
      if scriptWord.length < MIN_MATCH_LEN ∧ spoken ≠ scriptWord then 0
      else wordSimilarity spoken scriptWord)).sum / (anchor.length : ℚ)

/-- The `for (wi ...)` loop of the source's `advanceCursor`: slide over
the offsets, keeping the best score seen so far (initially `-1`) and
its position (initially the fallback cursor), updating only when the
score strictly exceeds both the best so far and the `0.45` confidence
threshold. -/
def searchLoop (f : Nat → ℚ) (g : Nat → Nat) : List Nat → ℚ → Nat → Nat
  | [], _, bestPos => bestPos
  | wi :: rest, bestScore, bestPos =>
    if f wi > bestScore ∧ f wi > 45 / 100 then searchLoop f g rest (f wi) (g wi)
    else searchLoop f g rest bestScore bestPos

/-- The search window `tokens.slice(max(0, cursorStart - LOOKBEHIND),
min(tokens.length, cursorStart + LOOKAHEAD))` (truncated subtraction on
`Nat` is exactly the `max(0, ·)`). -/
def searchWindow (tokens : List ScriptToken) (cursorStart : Nat) : List ScriptToken :=
  (tokens.drop (cursorStart - LOOKBEHIND)).take
    (min tokens.length (cursorStart + LOOKAHEAD) - (cursorStart - LOOKBEHIND))

/-- The anchor: the last up to 3 spoken words, normalized, with words
that normalize to empty dropped. -/
def anchorOf (spokenWords : List (List Char)) : List (List Char) :=
  ((spokenWords.drop (spokenWords.length - 3)).map normalize).filter
    (fun w => !w.isEmpty)

/-- The source's `advanceCursor`: build the window and the anchor; if the
anchor is empty the cursor is unchanged, otherwise the loop above picks
the best offset and the result is `windowStart + wi + anchor.length - 1`,
falling back to `cursorStart`. -/
def advanceCursor (spokenWords : List (List Char)) (tokens : List ScriptToken)
    (cursorStart : Nat) : Nat :=
  if (anchorOf spokenWords).length = 0 then cursorStart
  else
    searchLoop (offsetScore (searchWindow tokens cursorStart) (anchorOf spokenWords))
      (fun wi => cursorStart - LOOKBEHIND + wi + (anchorOf spokenWords).length - 1)
      (List.range ((searchWindow tokens cursorStart).length + 1 -
        (anchorOf spokenWords).length))
      (-1) cursorStart

/-- Specification-side confidence threshold. -/
def confidenceThreshold : ℚ := 45 / 100

/-- Specification-side per-offset score, phrased over the zip of the
anchor with the window segment it is laid over. -/
def refOffsetScore (windowTokens : List ScriptToken) (anchor : List (List Char))
    (wi : Nat) : ℚ :=
  ((anchor.zip ((windowTokens.drop wi).take anchor.length)).map (fun p =>
      if p.2.normalized.length < MIN_MATCH_LEN ∧ p.1 ≠ p.2.normalized then 0
      else wordSimilarity p.1 p.2.normalized)).sum / (anchor.length : ℚ)

/-- Specification-side selection: walk the scored offsets in order,
keeping the best-scoring one under strict `>` comparison (so the first
offset wins ties), an offset being eligible only when its score exceeds
the confidence threshold. -/
def pickBestAux : List (Nat × ℚ) → Option (Nat × ℚ) → Option (Nat × ℚ)
  | [], best => best
  | (wi, s) :: rest, best =>
    if s > confidenceThreshold then
      match best with
      | none => pickBestAux rest (some (wi, s))
      | some (bi, bs) =>
        if s > bs then pickBestAux rest (some (wi, s))
        else pickBestAux rest (some (bi, bs))
    else pickBestAux rest best

/-- The qualifying offset chosen by the reference algorithm, if any. -/
def pickBest (cands : List (Nat × ℚ)) : Option Nat :=
  Option.map Prod.fst (pickBestAux cands none)

/-- The reference Window Search algorithm, written from the
specification: same window and anchor, every offset at which the anchor
fits is scored, the best offset above the threshold (first wins ties)
yields `windowStart + wi + anchorLength - 1`, otherwise the cursor is
unchanged. -/
def advanceCursorRef (spokenWords : List (List Char)) (tokens : List ScriptToken)
    (cursorStart : Nat) : Nat :=
  if anchorOf spokenWords = [] then cursorStart
  else
    match pickBest ((List.range ((searchWindow tokens cursorStart).length + 1 -
        (anchorOf spokenWords).length)).map
        (fun wi => (wi, refOffsetScore (searchWindow tokens cursorStart)
          (anchorOf spokenWords) wi))) with
    | some wi => cursorStart - LOOKBEHIND + wi + (anchorOf spokenWords).length - 1
    | none => cursorStart

/-- The mutable session state owned by the tracker (`tokens`,
`cursorIndex`, `isComplete` state and the `spokenBufferRef` /
`interimWordsRef` refs of the source). -/
structure TrackerState where
  tokens : List ScriptToken
  cursor : Int
  complete : Bool
  spokenBuffer : List (List Char)
  interimWords : List (List Char)
deriving DecidableEq, Repr

/-- A freshly created session: no script, cursor `-1`. -/
def initState : TrackerState :=
  { tokens := [], cursor := -1, complete := false, spokenBuffer := [], interimWords := [] }

/-- JavaScript `slice(-n)`: the last up to `n` elements. -/
def lastN (n : Nat) (l : List α) : List α :=
  l.drop (l.length - n)

/-- The source's `setScript`: tokenize, reset the cursor to `-1`, clear
completion and both buffers. -/
def setScript (_s : TrackerState) (text : List Char) : TrackerState :=
  { tokens := tokenize text, cursor := -1, complete := false,
    spokenBuffer := [], interimWords := [] }

/-- The Window Search candidate computed by an `ingestSpeech` call once
past the guards: the alignment input is the spoken history followed by
the words of this transcript, truncated to the last 20 (for a final
update this is exactly the new spoken buffer
`[...spokenBufferRef.current, ...words].slice(-20)`, for an interim
update the temporary `combined` list), searched from `max(0, cursor)`.
Both branches of the source compute exactly this expression. -/
def ingestCandidate (s : TrackerState) (transcript : List Char) : Nat :=
  advanceCursor (lastN 20 (s.spokenBuffer ++ splitWords (trim transcript)))
    s.tokens (Int.toNat (max 0 s.cursor))

/-- The source's `processSpeech`: no-op when no script is loaded or the
transcript has no words; a final update clears the interim buffer,
appends the words to the spoken buffer (keeping the last 20), runs the
window search from `max(0, cursor)` and commits the candidate only when
it strictly exceeds the cursor, setting `complete` when the candidate
reaches the last token (`newCursor >= tokens.length - 1`); an interim
update replaces the interim buffer wholesale and runs the window search
on the concatenation (last 20) without touching the spoken buffer or
`complete`. -/
def processSpeech (s : TrackerState) (transcript : List Char) (isFinal : Bool) :
    TrackerState :=
  if s.tokens.length = 0 then s
  else if (splitWords (trim transcript)).length = 0 then s
  else if isFinal then
    { s with
      interimWords := [],
      spokenBuffer := lastN 20 (s.spokenBuffer ++ splitWords (trim transcript)),
      complete :=
        if (ingestCandidate s transcript : Int) ≥ (s.tokens.length : Int) - 1 then true
        else s.complete,
      cursor :=
        if (ingestCandidate s transcript : Int) > s.cursor then
          (ingestCandidate s transcript : Int)
        else s.cursor }
  else
    { s with
      interimWords := splitWords (trim transcript),
      cursor :=
        if (ingestCandidate s transcript : Int) > s.cursor then
          (ingestCandidate s transcript : Int)
        else s.cursor }

/-- The source's `jumpTo`: set the cursor directly (no bounds check),
clear completion and both buffers, keep the tokens. -/
def jumpTo (s : TrackerState) (index : Int) : TrackerState :=
  { s with cursor := index, complete := false, spokenBuffer := [], interimWords := [] }

/-- The source's `reset`: cursor back to `-1`, clear completion and both
buffers, keep the tokens. -/
def reset (s : TrackerState) : TrackerState :=
  { s with cursor := -1, complete := false, spokenBuffer := [], interimWords := [] }

/-- One externally triggered session operation. -/
inductive Op where
  | load (text : List Char)
  | ingest (transcript : List Char) (isFinal : Bool)
  | jump (index : Int)
  | resetOp
deriving DecidableEq, Repr

/-- Apply one operation to the session state. -/
def applyOp (s : TrackerState) : Op → TrackerState
  | .load text => setScript s text
  | .ingest t f => processSpeech s t f
  | .jump i => jumpTo s i
  | .resetOp => reset s

/-- Apply a sequence of operations, oldest first. -/
def applyOps (s : TrackerState) (ops : List Op) : TrackerState :=
  ops.foldl applyOp s

/-- Caller contract of the presentation layer: every `jumpTo` receives
an index within `[0, tokens.length - 1]` of the tokens loaded at that
moment. -/
def validOps : TrackerState → List Op → Bool
  | _, [] => true
  | s, op :: rest =>
    (match op with
      | .jump i => decide (0 ≤ i ∧ i ≤ (s.tokens.length : Int) - 1)
      | _ => true) && validOps (applyOp s op) rest

/-- The cursor-boundedness invariant: `cursor ∈ [-1, tokens.length - 1]`. -/
def Inv (s : TrackerState) : Prop :=
  -1 ≤ s.cursor ∧ s.cursor ≤ (s.tokens.length : Int) - 1

instance (s : TrackerState) : Decidable (Inv s) :=
  inferInstanceAs (Decidable (-1 ≤ s.cursor ∧ s.cursor ≤ (s.tokens.length : Int) - 1))

/-! ### Levenshtein lemmas -/

@[simp]
theorem levMat_nil (b : List Char) : levMat [] b = b.length := rfl

@[simp]
theorem levMat_cons_nil (c : Char) (a : List Char) :
    levMat (c :: a) [] = a.length + 1 := rfl

theorem levMat_cons_cons (c d : Char) (a b : List Char) :
    levMat (c :: a) (d :: b) =
      if c = d then levMat a b
      else 1 + min (levMat a b) (min (levMat (c :: a) b) (levMat a (d :: b))) := rfl

@[simp]
theorem levMat_nil_right (a : List Char) : levMat a [] = a.length := by
  cases a <;> simp

@[simp]
theorem levMat_self (a : List Char) : levMat a a = 0 := by
  induction a with
  | nil => rfl
  | cons c a ih => rw [levMat_cons_cons, if_pos rfl, ih]

theorem levenshtein_eq_levMat (a b : List Char) : levenshtein a b = levMat a b := by
  unfold levenshtein
  split
  · next h => rw [h, levMat_self]
  split
  · next h =>
    rw [List.length_eq_zero] at h
    rw [h, levMat_nil]
  split
  · next h =>
    rw [List.length_eq_zero] at h
    rw [h, levMat_nil_right]
  rfl

theorem levMat_le_max (a b : List Char) : levMat a b ≤ max a.length b.length := by
  induction a generalizing b with
  | nil => simp
  | cons c a ih =>
    cases b with
    | nil => simp
    | cons d b' =>
      rw [levMat_cons_cons]
      have h1 := ih b'
      split
      · simp only [List.length_cons]; omega
      · simp only [List.length_cons]; omega

theorem length_le_levMat_add :
    ∀ (n : Nat) (a b : List Char), a.length + b.length ≤ n →
      a.length ≤ levMat a b + b.length := by
  intro n
  induction n with
  | zero =>
    intro a b h
    cases a with
    | nil => simp
    | cons c a' => simp at h
  | succ n ih =>
    intro a b h
    cases a with
    | nil => simp
    | cons c a' =>
      cases b with
      | nil => simp
      | cons d b' =>
        simp only [List.length_cons] at h
        rw [levMat_cons_cons]
        have h1 := ih a' b' (by omega)
        have h2 := ih (c :: a') b' (by simp only [List.length_cons]; omega)
        have h3 := ih a' (d :: b') (by simp only [List.length_cons]; omega)
        simp only [List.length_cons] at *
        split
        · omega
        · omega

theorem levMat_symm :
    ∀ (n : Nat) (a b : List Char), a.length + b.length ≤ n →
      levMat a b = levMat b a := by
  intro n
  induction n with
  | zero =>
    intro a b h
    cases a with
    | nil => simp
    | cons c a' => simp at h
  | succ n ih =>
    intro a b h
    cases a with
    | nil => simp
    | cons c a' =>
      cases b with
      | nil => simp
      | cons d b' =>
        simp only [List.length_cons] at h
        rw [levMat_cons_cons, levMat_cons_cons]
        have h1 := ih a' b' (by omega)
        have h2 := ih (c :: a') b' (by simp only [List.length_cons]; omega)
        have h3 := ih a' (d :: b') (by simp only [List.length_cons]; omega)
        by_cases hcd : c = d
        · rw [if_pos hcd, if_pos hcd.symm, h1]
        · rw [if_neg hcd, if_neg (fun hdc => hcd hdc.symm), h1, h2, h3]
          omega

theorem levenshtein_symm (a b : List Char) : levenshtein a b = levenshtein b a := by
  rw [levenshtein_eq_levMat, levenshtein_eq_levMat]
  exact levMat_symm (a.length + b.length) a b le_rfl

theorem levMat_consBounds :
    ∀ (n : Nat),
      (∀ (a b : List Char) (c : Char), a.length + b.length ≤ n →
        levMat (c :: a) b ≤ 1 + levMat a b) ∧
      (∀ (a b : List Char) (d : Char), a.length + b.length ≤ n →
        levMat a b ≤ 1 + levMat a (d :: b)) := by
  intro n
  induction n with
  | zero =>
    constructor
    · intro a b c h
      cases a with
      | nil =>
        cases b with
        | nil => simp
        | cons d b' => simp at h
      | cons c' a' => simp at h
    · intro a b d h
      cases a with
      | nil =>
        cases b with
        | nil => simp
        | cons d' b' => simp at h
      | cons c' a' => simp at h
  | succ n ih =>
    have hL2 : ∀ (a b : List Char) (c : Char), a.length + b.length ≤ n + 1 →
        levMat (c :: a) b ≤ 1 + levMat a b := by
      intro a b c h
      cases b with
      | nil =>
        simp only [levMat_cons_nil, levMat_nil_right, List.length_cons,
          List.length_nil] at h ⊢
        omega
      | cons d b' =>
        rw [levMat_cons_cons]
        split
        · next hcd =>
          -- the taken diagonal: `levMat a b' ≤ 1 + levMat a (d :: b')`
          have := ih.2 a b' d (by simp only [List.length_cons] at h; omega)
          omega
        · have hmin : min (levMat a b') (min (levMat (c :: a) b') (levMat a (d :: b')))
              ≤ levMat a (d :: b') := le_trans (min_le_right _ _) (min_le_right _ _)
          omega
    refine ⟨hL2, ?_⟩
    intro a b d h
    cases a with
    | nil => simp only [levMat_nil, List.length_cons]; omega
    | cons c a' =>
      cases b with
      | nil =>
        -- `levMat (c :: a') [d] + 1 ≥ |c :: a'|` from the length lower bound
        have hlb := length_le_levMat_add ((c :: a').length + 1) (c :: a') [d]
          (by simp)
        rw [levMat_nil_right]
        simp only [List.length_cons, List.length_nil] at hlb ⊢
        omega
      | cons e b' =>
        simp only [List.length_cons] at h
        conv_rhs => rw [levMat_cons_cons]
        split
        · next hcd =>
          -- goal: levMat (c::a') (e::b') ≤ 1 + levMat a' (e::b')
          exact hL2 a' (e :: b') c (by simp only [List.length_cons]; omega)
        · have hx : levMat (c :: a') (e :: b') ≤ 1 + levMat a' (e :: b') :=
            hL2 a' (e :: b') c (by simp only [List.length_cons]; omega)
          have hz : levMat a' (e :: b') ≤ 1 + levMat a' (d :: e :: b') := by
            exact ih.2 a' (e :: b') d (by simp only [List.length_cons]; omega)
          omega

theorem levMat_cons_le (c : Char) (a b : List Char) :
    levMat (c :: a) b ≤ 1 + levMat a b :=
  (levMat_consBounds (a.length + b.length)).1 a b c le_rfl

theorem levMat_le_cons_right (d : Char) (a b : List Char) :
    levMat a b ≤ 1 + levMat a (d :: b) :=
  (levMat_consBounds (a.length + b.length)).2 a b d le_rfl

theorem levMat_le_cons_left (c : Char) (a b : List Char) :
    levMat a b ≤ 1 + levMat (c :: a) b := by
  rw [levMat_symm (a.length + b.length) a b le_rfl]
  calc levMat b a ≤ 1 + levMat b (c :: a) := levMat_le_cons_right c b a
    _ = 1 + levMat (c :: a) b := by
        rw [levMat_symm (b.length + (c :: a).length) b (c :: a) le_rfl]

@[simp]
theorem levSpec_nil (b : List Char) : levSpec [] b = b.length := rfl

@[simp]
theorem levSpec_cons_nil (c : Char) (a : List Char) :
    levSpec (c :: a) [] = a.length + 1 := rfl

theorem levSpec_cons_cons (c d : Char) (a b : List Char) :
    levSpec (c :: a) (d :: b) =
      min (levSpec a b + (if c = d then 0 else 1))
        (min (levSpec (c :: a) b + 1) (levSpec a (d :: b) + 1)) := rfl

theorem levMat_eq_levSpec :
    ∀ (n : Nat) (a b : List Char), a.length + b.length ≤ n →
      levMat a b = levSpec a b := by
  intro n
  induction n with
  | zero =>
    intro a b h
    cases a with
    | nil => simp
    | cons c a' => simp at h
  | succ n ih =>
    intro a b h
    cases a with
    | nil => simp
    | cons c a' =>
      cases b with
      | nil => simp
      | cons d b' =>
        simp only [List.length_cons] at h
        rw [levMat_cons_cons, levSpec_cons_cons]
        rw [← ih a' b' (by omega), ← ih (c :: a') b' (by simp only [List.length_cons]; omega),
          ← ih a' (d :: b') (by simp only [List.length_cons]; omega)]
        have h1 := levMat_le_cons_left c a' b'
        have h2 := levMat_le_cons_right d a' b'
        split
        · omega
        · omega

theorem levenshtein_eq_levSpec (a b : List Char) : levenshtein a b = levSpec a b := by
  rw [levenshtein_eq_levMat]
  exact levMat_eq_levSpec (a.length + b.length) a b le_rfl

theorem levenshtein_le_max (a b : List Char) :
    levenshtein a b ≤ max a.length b.length := by
  rw [levenshtein_eq_levMat]; exact levMat_le_max a b

/-! ### Similarity lemmas -/

theorem wordSimilarity_nonneg (a b : List Char) : 0 ≤ wordSimilarity a b := by
  unfold wordSimilarity
  split
  · exact le_refl 0
  next hne =>
    split
    · exact zero_le_one
    simp only
    split
    · exact zero_le_one
    next hmax =>
      have hd : (levenshtein a b : ℚ) ≤ (max a.length b.length : ℚ) := by
        exact_mod_cast levenshtein_le_max a b
      have hpos : (0 : ℚ) < (max a.length b.length : ℚ) := by
        exact_mod_cast Nat.pos_of_ne_zero hmax
      have : (levenshtein a b : ℚ) / (max a.length b.length : ℚ) ≤ 1 :=
        (div_le_one hpos).mpr hd
      push_cast
      linarith

theorem wordSimilarity_le_one (a b : List Char) : wordSimilarity a b ≤ 1 := by
  unfold wordSimilarity
  split
  · exact zero_le_one
  split
  · exact le_refl 1
  simp only
  split
  · exact le_refl 1
  next hmax =>
    have hpos : (0 : ℚ) < (max a.length b.length : ℚ) := by
      exact_mod_cast Nat.pos_of_ne_zero hmax
    have : (0 : ℚ) ≤ (levenshtein a b : ℚ) / (max a.length b.length : ℚ) :=
      div_nonneg (by positivity) (le_of_lt hpos)
    push_cast
    linarith

theorem wordSimilarity_symm (a b : List Char) :
    wordSimilarity a b = wordSimilarity b a := by
  by_cases hab : a = b
  · rw [hab]
  · have hba : ¬ b = a := fun h => hab h.symm
    simp only [wordSimilarity, if_neg hab, if_neg hba]
    rw [Bool.or_comm, levenshtein_symm, max_comm]

/-! ### Tokenizer lemmas: the split-and-filter of the source equals the
maximal non-whitespace runs -/

theorem jsSplitGo_nil (mode : Bool) (cur : List Char) :
    jsSplitGo mode cur [] = [cur.reverse] := rfl

theorem jsSplitGo_cons (mode : Bool) (cur : List Char) (c : Char) (rest : List Char) :
    jsSplitGo mode cur (c :: rest) =
      if isWS c then
        (if mode then jsSplitGo true [] rest
         else cur.reverse :: jsSplitGo true [] rest)
      else jsSplitGo false (c :: cur) rest := rfl

theorem wordsOf_nil : wordsOf [] = [] := by rw [wordsOf]

theorem wordsOf_cons_ws {c : Char} (rest : List Char) (h : isWS c = true) :
    wordsOf (c :: rest) = wordsOf rest := by
  rw [wordsOf]
  simp [h]

theorem wordsOf_cons_not_ws {c : Char} (rest : List Char) (h : isWS c = false) :
    wordsOf (c :: rest) =
      (c :: rest.takeWhile (fun x => !isWS x)) ::
        wordsOf (rest.dropWhile (fun x => !isWS x)) := by
  rw [wordsOf]
  simp [h]

theorem jsSplit_spec :
    ∀ (n : Nat) (l : List Char), l.length ≤ n →
      ((jsSplitGo true [] l).filter (fun w => !w.isEmpty) = wordsOf l) ∧
      (∀ cur : List Char, cur ≠ [] →
        (jsSplitGo false cur l).filter (fun w => !w.isEmpty) =
          (cur.reverse ++ l.takeWhile (fun x => !isWS x)) ::
            wordsOf (l.dropWhile (fun x => !isWS x))) := by
  intro n
  induction n with
  | zero =>
    intro l hl
    have hnil : l = [] := by
      cases l with
      | nil => rfl
      | cons c rest => simp at hl
    subst hnil
    constructor
    · simp [jsSplitGo_nil, wordsOf_nil]
    · intro cur hcur
      have hne : cur.reverse ≠ [] := by simpa using hcur
      simp [jsSplitGo_nil, wordsOf_nil, List.filter_cons, hne]
  | succ n ih =>
    intro l hl
    cases l with
    | nil =>
      constructor
      · simp [jsSplitGo_nil, wordsOf_nil]
      · intro cur hcur
        have hne : cur.reverse ≠ [] := by simpa using hcur
        simp [jsSplitGo_nil, wordsOf_nil, List.filter_cons, hne]
    | cons c rest =>
      have hrest : rest.length ≤ n := by simp at hl; omega
      constructor
      · rw [jsSplitGo_cons]
        by_cases hc : isWS c
        · rw [if_pos hc, if_pos rfl, (ih rest hrest).1, wordsOf_cons_ws rest hc]
        · rw [if_neg hc]
          have hb := (ih rest hrest).2 [c] (by simp)
          rw [hb, wordsOf_cons_not_ws rest (by simpa using hc)]
          simp
      · intro cur hcur
        have hne : cur.reverse ≠ [] := by simpa using hcur
        rw [jsSplitGo_cons]
        by_cases hc : isWS c
        · rw [if_pos hc, if_neg (by simp)]
          rw [List.filter_cons, if_pos (by simpa using hne), (ih rest hrest).1]
          rw [List.takeWhile_cons, List.dropWhile_cons]
          simp only [hc, Bool.not_true, if_neg (by simp : ¬ (false = true))]
          rw [wordsOf_cons_ws rest hc]
          simp
        · rw [if_neg hc]
          have hb := (ih rest hrest).2 (c :: cur) (by simp)
          rw [hb, List.takeWhile_cons, List.dropWhile_cons]
          have hcb : (!isWS c) = true := by simpa using hc
          rw [if_pos hcb, if_pos hcb]
          simp

theorem splitWords_eq_wordsOf (l : List Char) : splitWords l = wordsOf l := by
  unfold splitWords splitWs
  cases l with
  | nil => simp [jsSplitGo_nil, wordsOf_nil]
  | cons c rest =>
    rw [jsSplitGo_cons]
    by_cases hc : isWS c
    · rw [if_pos hc, if_neg (by simp)]
      rw [List.filter_cons]
      simp only [List.reverse_nil, List.isEmpty_nil, Bool.not_true,
        if_neg (by simp : ¬ (false = true))]
      rw [(jsSplit_spec rest.length rest le_rfl).1, wordsOf_cons_ws rest hc]
    · rw [if_neg hc]
      have hb := (jsSplit_spec rest.length rest le_rfl).2 [c] (by simp)
      rw [hb, wordsOf_cons_not_ws rest (by simpa using hc)]
      simp

/-! ### Window-search lemmas -/

theorem searchLoop_nil (f : Nat → ℚ) (g : Nat → Nat) (b : ℚ) (p : Nat) :
    searchLoop f g [] b p = p := rfl

theorem searchLoop_cons (f : Nat → ℚ) (g : Nat → Nat) (wi : Nat) (rest : List Nat)
    (b : ℚ) (p : Nat) :
    searchLoop f g (wi :: rest) b p =
      if f wi > b ∧ f wi > 45 / 100 then searchLoop f g rest (f wi) (g wi)
      else searchLoop f g rest b p := rfl

theorem pickBestAux_nil (best : Option (Nat × ℚ)) : pickBestAux [] best = best := rfl

theorem pickBestAux_cons_none (wi : Nat) (s : ℚ) (rest : List (Nat × ℚ)) :
    pickBestAux ((wi, s) :: rest) none =
      if s > confidenceThreshold then pickBestAux rest (some (wi, s))
      else pickBestAux rest none := rfl

theorem pickBestAux_cons_some (wi : Nat) (s : ℚ) (rest : List (Nat × ℚ))
    (bi : Nat) (bs : ℚ) :
    pickBestAux ((wi, s) :: rest) (some (bi, bs)) =
      if s > confidenceThreshold then
        (if s > bs then pickBestAux rest (some (wi, s))
         else pickBestAux rest (some (bi, bs)))
      else pickBestAux rest (some (bi, bs)) := rfl

theorem offsetScore_nonneg (w : List ScriptToken) (anchor : List (List Char))
    (wi : Nat) : 0 ≤ offsetScore w anchor wi := by
  unfold offsetScore
  apply div_nonneg
  · apply List.sum_nonneg
    intro x hx
    simp only [List.mem_map] at hx
    obtain ⟨ai, _, rfl⟩ := hx
    split
    · exact le_refl 0
    · exact wordSimilarity_nonneg _ _
  · positivity

theorem searchLoop_result (f : Nat → ℚ) (g : Nat → Nat) :
    ∀ (idxs : List Nat) (b : ℚ) (p : Nat),
      searchLoop f g idxs b p = p ∨ ∃ wi ∈ idxs, searchLoop f g idxs b p = g wi := by
  intro idxs
  induction idxs with
  | nil => intro b p; left; rfl
  | cons wi rest ih =>
    intro b p
    rw [searchLoop_cons]
    split
    · rcases ih (f wi) (g wi) with h | ⟨wj, hm, hj⟩
      · right; exact ⟨wi, by simp, h⟩
      · right; exact ⟨wj, by simp [hm], hj⟩
    · rcases ih b p with h | ⟨wj, hm, hj⟩
      · left; exact h
      · right; exact ⟨wj, by simp [hm], hj⟩

theorem searchLoop_eq_pickBest (f : Nat → ℚ) (g : Nat → Nat) (d : Nat) :
    ∀ (idxs : List Nat) (b : ℚ) (p : Nat) (best : Option (Nat × ℚ)),
      (∀ i ∈ idxs, 0 ≤ f i) →
      (match best with
       | none => b = -1 ∧ p = d
       | some (bi, bs) => b = bs ∧ p = g bi) →
      searchLoop f g idxs b p =
        (match pickBestAux (idxs.map (fun i => (i, f i))) best with
         | some (bi, _) => g bi
         | none => d) := by
  intro idxs
  induction idxs with
  | nil =>
    intro b p best _ hrel
    cases best with
    | none => rw [searchLoop_nil, List.map_nil, pickBestAux_nil]; exact hrel.2
    | some bp =>
      obtain ⟨bi, bs⟩ := bp
      rw [searchLoop_nil, List.map_nil, pickBestAux_nil]
      exact hrel.2
  | cons wi rest ih =>
    intro b p best hnn hrel
    have hnn' : ∀ i ∈ rest, 0 ≤ f i := fun i hi => hnn i (by simp [hi])
    have hwi : 0 ≤ f wi := hnn wi (by simp)
    rw [searchLoop_cons, List.map_cons]
    have hct : confidenceThreshold = 45 / 100 := rfl
    cases best with
    | none =>
      rw [pickBestAux_cons_none]
      obtain ⟨hb, hp⟩ := hrel
      by_cases hthr : f wi > (45 : ℚ) / 100
      · have hcond : f wi > b ∧ f wi > 45 / 100 :=
          ⟨by rw [hb]; linarith, hthr⟩
        rw [if_pos hcond, if_pos (show f wi > confidenceThreshold by
          rw [hct]; exact hthr)]
        exact ih (f wi) (g wi) (some (wi, f wi)) hnn' ⟨rfl, rfl⟩
      · have hcond : ¬ (f wi > b ∧ f wi > 45 / 100) := fun hc => hthr hc.2
        rw [if_neg hcond, if_neg (show ¬ f wi > confidenceThreshold by
          rw [hct]; exact hthr)]
        exact ih b p none hnn' ⟨hb, hp⟩
    | some bp =>
      obtain ⟨bi, bs⟩ := bp
      rw [pickBestAux_cons_some]
      obtain ⟨hb, hp⟩ := hrel
      by_cases hthr : f wi > (45 : ℚ) / 100
      · by_cases hbs : f wi > bs
        · have hcond : f wi > b ∧ f wi > 45 / 100 := ⟨by rw [hb]; exact hbs, hthr⟩
          rw [if_pos hcond, if_pos (show f wi > confidenceThreshold by
            rw [hct]; exact hthr), if_pos hbs]
          exact ih (f wi) (g wi) (some (wi, f wi)) hnn' ⟨rfl, rfl⟩
        · have hcond : ¬ (f wi > b ∧ f wi > 45 / 100) :=
            fun hc => hbs (hb ▸ hc.1)
          rw [if_neg hcond, if_pos (show f wi > confidenceThreshold by
            rw [hct]; exact hthr), if_neg hbs]
          exact ih b p (some (bi, bs)) hnn' ⟨hb, hp⟩
      · have hcond : ¬ (f wi > b ∧ f wi > 45 / 100) := fun hc => hthr hc.2
        rw [if_neg hcond, if_neg (show ¬ f wi > confidenceThreshold by
          rw [hct]; exact hthr)]
        exact ih b p (some (bi, bs)) hnn' ⟨hb, hp⟩

theorem range_map_eq_zip_map (G : List Char → List Char → ℚ) :
    ∀ (xs : List (List Char)) (ys : List ScriptToken) (wi : Nat),
      wi + xs.length ≤ ys.length →
      (List.range xs.length).map (fun ai =>
          G (xs.getD ai []) (((ys[wi + ai]?).map (fun t => t.normalized)).getD [])) =
        (xs.zip ((ys.drop wi).take xs.length)).map (fun p => G p.1 p.2.normalized) := by
  intro xs
  induction xs with
  | nil => intro ys wi _; simp
  | cons x xs ih =>
    intro ys wi h
    simp only [List.length_cons] at h
    have hwi : wi < ys.length := by omega
    rw [List.length_cons, List.range_succ_eq_map, List.map_cons, List.map_map]
    rw [List.drop_eq_getElem_cons hwi]
    rw [List.take_succ_cons, List.zip_cons_cons, List.map_cons]
    congr 1
    · simp [List.getElem?_eq_getElem hwi]
    · rw [← ih ys (wi + 1) (by omega)]
      apply List.map_congr_left
      intro ai _
      simp only [Function.comp_apply, List.getD_cons_succ, Nat.succ_eq_add_one]
      have hidx : wi + (ai + 1) = wi + 1 + ai := by omega
      rw [hidx]

theorem refOffsetScore_eq (w : List ScriptToken) (anchor : List (List Char))
    (wi : Nat) (h : wi + anchor.length ≤ w.length) :
    refOffsetScore w anchor wi = offsetScore w anchor wi := by
  unfold refOffsetScore offsetScore
  rw [range_map_eq_zip_map
    (fun spoken sw => if sw.length < MIN_MATCH_LEN ∧ spoken ≠ sw then 0
      else wordSimilarity spoken sw) anchor w wi h]

/-- C1 core: the source loop agrees with the reference selection. -/
theorem advanceCursor_eq_body (W : List ScriptToken) (A : List (List Char))
    (ws cs : Nat) :
    searchLoop (offsetScore W A) (fun wi => ws + wi + A.length - 1)
        (List.range (W.length + 1 - A.length)) (-1) cs =
      (match pickBest ((List.range (W.length + 1 - A.length)).map
          (fun wi => (wi, refOffsetScore W A wi))) with
       | some wi => ws + wi + A.length - 1
       | none => cs) := by
  have hmap : (List.range (W.length + 1 - A.length)).map
      (fun wi => (wi, refOffsetScore W A wi)) =
      (List.range (W.length + 1 - A.length)).map
        (fun wi => (wi, offsetScore W A wi)) := by
    apply List.map_congr_left
    intro wi hwi
    simp only [List.mem_range] at hwi
    rw [refOffsetScore_eq W A wi (by omega)]
  rw [hmap, pickBest]
  rw [searchLoop_eq_pickBest (offsetScore W A) (fun wi => ws + wi + A.length - 1) cs
    (List.range (W.length + 1 - A.length)) (-1) cs none
    (fun i _ => offsetScore_nonneg W A i) ⟨rfl, rfl⟩]
  cases pickBestAux ((List.range (W.length + 1 - A.length)).map
      (fun wi => (wi, offsetScore W A wi))) none with
  | none => rfl
  | some bp => obtain ⟨bi, bs⟩ := bp; rfl

theorem advanceCursor_eq_advanceCursorRef (sw : List (List Char))
    (tokens : List ScriptToken) (cs : Nat) :
    advanceCursor sw tokens cs = advanceCursorRef sw tokens cs := by
  unfold advanceCursor advanceCursorRef
  by_cases hA : anchorOf sw = []
  · rw [if_pos (by simp [hA]), if_pos hA]
  · rw [if_neg (by simpa [List.length_eq_zero] using hA), if_neg hA]
    exact advanceCursor_eq_body (searchWindow tokens cs) (anchorOf sw)
      (cs - LOOKBEHIND) cs

theorem searchWindow_length (tokens : List ScriptToken) (cs : Nat) :
    (searchWindow tokens cs).length ≤ tokens.length - (cs - LOOKBEHIND) := by
  unfold searchWindow
  rw [List.length_take, List.length_drop]
  omega

theorem advanceCursor_le (sw : List (List Char)) (tokens : List ScriptToken)
    (cs : Nat) (htok : tokens ≠ []) (hcs : cs ≤ tokens.length - 1) :
    advanceCursor sw tokens cs ≤ tokens.length - 1 := by
  unfold advanceCursor
  split
  · exact hcs
  next _hA =>
    have hW := searchWindow_length tokens cs
    rcases searchLoop_result (offsetScore (searchWindow tokens cs) (anchorOf sw))
        (fun wi => cs - LOOKBEHIND + wi + (anchorOf sw).length - 1)
        (List.range ((searchWindow tokens cs).length + 1 - (anchorOf sw).length))
        (-1) cs with h | ⟨wi, hmem, h⟩
    · rw [h]; exact hcs
    · rw [h]
      simp only [List.mem_range] at hmem
      have hlen : 1 ≤ tokens.length := by
        cases tokens with
        | nil => exact absurd rfl htok
        | cons x l => simp
      omega

/-! ### Session lemmas -/

theorem processSpeech_tokens (s : TrackerState) (t : List Char) (f : Bool) :
    (processSpeech s t f).tokens = s.tokens := by
  unfold processSpeech
  by_cases h1 : s.tokens.length = 0 <;>
    by_cases h2 : (splitWords (trim t)).length = 0 <;>
    cases f <;> simp [h1, h2]

theorem processSpeech_noop (s : TrackerState) (t : List Char) (f : Bool)
    (h : s.tokens = [] ∨ splitWords (trim t) = []) : processSpeech s t f = s := by
  unfold processSpeech
  rcases h with h | h
  · rw [if_pos (by simp [h])]
  · by_cases h1 : s.tokens.length = 0
    · rw [if_pos h1]
    · rw [if_neg h1, if_pos (by simp [h])]

theorem processSpeech_cursor (s : TrackerState) (t : List Char) (f : Bool) :
    (processSpeech s t f).cursor =
      if s.tokens.length ≠ 0 ∧ (splitWords (trim t)).length ≠ 0 ∧
          ((ingestCandidate s t : Int) > s.cursor)
      then (ingestCandidate s t : Int) else s.cursor := by
  unfold processSpeech
  by_cases h1 : s.tokens.length = 0
  · simp [h1]
  · by_cases h2 : (splitWords (trim t)).length = 0
    · simp [h1, h2]
    · by_cases h3 : (ingestCandidate s t : Int) > s.cursor <;>
        cases f <;> simp [h1, h2, h3]

theorem processSpeech_cursor_mono (s : TrackerState) (t : List Char) (f : Bool) :
    s.cursor ≤ (processSpeech s t f).cursor := by
  rw [processSpeech_cursor]
  split
  · next h => exact le_of_lt h.2.2
  · exact le_rfl

theorem cursor_mono_calls (calls : List (List Char × Bool)) :
    ∀ s : TrackerState,
      s.cursor ≤ (calls.foldl (fun st c => processSpeech st c.1 c.2) s).cursor := by
  induction calls with
  | nil => intro s; exact le_rfl
  | cons c rest ih =>
    intro s
    exact le_trans (processSpeech_cursor_mono s c.1 c.2) (ih _)

theorem processSpeech_complete_interim (s : TrackerState) (t : List Char) :
    (processSpeech s t false).complete = s.complete := by
  unfold processSpeech
  by_cases h1 : s.tokens.length = 0 <;>
    by_cases h2 : (splitWords (trim t)).length = 0 <;> simp [h1, h2]

theorem processSpeech_complete_final (s : TrackerState) (t : List Char) :
    (processSpeech s t true).complete =
      if s.tokens.length ≠ 0 ∧ (splitWords (trim t)).length ≠ 0 ∧
          ((ingestCandidate s t : Int) ≥ (s.tokens.length : Int) - 1)
      then true else s.complete := by
  unfold processSpeech
  by_cases h1 : s.tokens.length = 0
  · simp [h1]
  · by_cases h2 : (splitWords (trim t)).length = 0
    · simp [h1, h2]
    · by_cases h3 : (ingestCandidate s t : Int) ≥ (s.tokens.length : Int) - 1 <;>
        simp [h1, h2, h3]

theorem processSpeech_buffer_interim (s : TrackerState) (t : List Char) :
    (processSpeech s t false).spokenBuffer = s.spokenBuffer := by
  unfold processSpeech
  by_cases h1 : s.tokens.length = 0 <;>
    by_cases h2 : (splitWords (trim t)).length = 0 <;> simp [h1, h2]

theorem processSpeech_buffer_final (s : TrackerState) (t : List Char) :
    (processSpeech s t true).spokenBuffer =
      if s.tokens.length ≠ 0 ∧ (splitWords (trim t)).length ≠ 0
      then lastN 20 (s.spokenBuffer ++ splitWords (trim t))
      else s.spokenBuffer := by
  unfold processSpeech
  by_cases h1 : s.tokens.length = 0
  · simp [h1]
  · by_cases h2 : (splitWords (trim t)).length = 0 <;> simp [h1, h2]

theorem processSpeech_interimWords_interim (s : TrackerState) (t : List Char) :
    (processSpeech s t false).interimWords =
      if s.tokens.length ≠ 0 ∧ (splitWords (trim t)).length ≠ 0
      then splitWords (trim t) else s.interimWords := by
  unfold processSpeech
  by_cases h1 : s.tokens.length = 0
  · simp [h1]
  · by_cases h2 : (splitWords (trim t)).length = 0 <;> simp [h1, h2]

theorem processSpeech_interimWords_final (s : TrackerState) (t : List Char) :
    (processSpeech s t true).interimWords =
      if s.tokens.length ≠ 0 ∧ (splitWords (trim t)).length ≠ 0
      then [] else s.interimWords := by
  unfold processSpeech
  by_cases h1 : s.tokens.length = 0
  · simp [h1]
  · by_cases h2 : (splitWords (trim t)).length = 0 <;> simp [h1, h2]

theorem lastN_length_le (n : Nat) (l : List α) : (lastN n l).length ≤ n := by
  unfold lastN
  rw [List.length_drop]
  omega

theorem spokenBuffer_le_20 :
    ∀ (ops : List Op) (s : TrackerState), s.spokenBuffer.length ≤ 20 →
      (applyOps s ops).spokenBuffer.length ≤ 20 := by
  intro ops
  induction ops with
  | nil => intro s h; exact h
  | cons op rest ih =>
    intro s h
    show (applyOps (applyOp s op) rest).spokenBuffer.length ≤ 20
    apply ih
    cases op with
    | load text => simp [applyOp, setScript]
    | ingest t f =>
      cases f with
      | false => rw [applyOp, processSpeech_buffer_interim]; exact h
      | true =>
        rw [applyOp, processSpeech_buffer_final]
        split
        · exact lastN_length_le 20 _
        · exact h
    | jump i => simp [applyOp, jumpTo]
    | resetOp => simp [applyOp, reset]

theorem ingestCandidate_le (s : TrackerState) (t : List Char) (h : Inv s)
    (hne : s.tokens ≠ []) : ingestCandidate s t ≤ s.tokens.length - 1 := by
  unfold ingestCandidate
  apply advanceCursor_le _ _ _ hne
  obtain ⟨_h1, h2⟩ := h
  omega

theorem Inv_processSpeech (s : TrackerState) (t : List Char) (f : Bool)
    (h : Inv s) : Inv (processSpeech s t f) := by
  have htk := processSpeech_tokens s t f
  constructor
  · rw [processSpeech_cursor]
    split
    · have := Int.natCast_nonneg (ingestCandidate s t)
      omega
    · exact h.1
  · rw [htk, processSpeech_cursor]
    split
    · next hc =>
      obtain ⟨hne0, _hw, _hgt⟩ := hc
      have hne : s.tokens ≠ [] := fun h' => hne0 (by simp [h'])
      have hcle := ingestCandidate_le s t h hne
      have hlen : 1 ≤ s.tokens.length := Nat.pos_of_ne_zero hne0
      omega
    · exact h.2

theorem Inv_setScript (s : TrackerState) (text : List Char) :
    Inv (setScript s text) := by
  constructor
  · exact le_rfl
  · have := Int.natCast_nonneg (tokenize text).length
    show (-1 : Int) ≤ ((tokenize text).length : Int) - 1
    omega

theorem Inv_jumpTo (s : TrackerState) (i : Int)
    (hi : 0 ≤ i ∧ i ≤ (s.tokens.length : Int) - 1) : Inv (jumpTo s i) := by
  constructor
  · show (-1 : Int) ≤ i
    omega
  · show i ≤ (s.tokens.length : Int) - 1
    exact hi.2

theorem Inv_reset (s : TrackerState) : Inv (reset s) := by
  constructor
  · exact le_rfl
  · have := Int.natCast_nonneg s.tokens.length
    show (-1 : Int) ≤ (s.tokens.length : Int) - 1
    omega

theorem Inv_applyOps :
    ∀ (ops : List Op) (s : TrackerState), Inv s → validOps s ops = true →
      Inv (applyOps s ops) := by
  intro ops
  induction ops with
  | nil => intro s h _; exact h
  | cons op rest ih =>
    intro s h hv
    show Inv (applyOps (applyOp s op) rest)
    cases op with
    | load text =>
      simp only [validOps, Bool.and_eq_true] at hv
      exact ih _ (Inv_setScript s text) hv.2
    | ingest t f =>
      simp only [validOps, Bool.and_eq_true] at hv
      exact ih _ (Inv_processSpeech s t f h) hv.2
    | jump i =>
      simp only [validOps, Bool.and_eq_true, decide_eq_true_eq] at hv
      exact ih _ (Inv_jumpTo s i hv.1) hv.2
    | resetOp =>
      simp only [validOps, Bool.and_eq_true] at hv
      exact ih _ (Inv_reset s) hv.2

theorem processSpeech_final_complete_cursor (s : TrackerState) (t : List Char)
    (hInv : Inv s) (hnew : (processSpeech s t true).complete = true)
    (hold : s.complete = false) :
    (processSpeech s t true).cursor = (s.tokens.length : Int) - 1 := by
  rw [processSpeech_complete_final] at hnew
  by_cases hc : s.tokens.length ≠ 0 ∧ (splitWords (trim t)).length ≠ 0 ∧
      ((ingestCandidate s t : Int) ≥ (s.tokens.length : Int) - 1)
  · obtain ⟨h1, h2, h3⟩ := hc
    have hne : s.tokens ≠ [] := fun h' => h1 (by simp [h'])
    have hcle := ingestCandidate_le s t hInv hne
    have hlen : 1 ≤ s.tokens.length := Nat.pos_of_ne_zero h1
    rw [processSpeech_cursor]
    by_cases h4 : (ingestCandidate s t : Int) > s.cursor
    · rw [if_pos ⟨h1, h2, h4⟩]
      omega
    · rw [if_neg (fun hh => h4 hh.2.2)]
      have := hInv.2
      omega
  · rw [if_neg hc, hold] at hnew
    exact absurd hnew (by simp)

/-! ### Concrete evaluations used by counterexamples and witnesses -/

theorem tokenize_hw :
    tokenize (String.data "hello world") =
      [⟨String.data "hello", String.data "hello", 0⟩,
       ⟨String.data "world", String.data "world", 1⟩] := by decide

theorem anchor_hw :
    anchorOf [String.data "hello", String.data "world"] =
      [String.data "hello", String.data "world"] := by decide

theorem window_hw :
    searchWindow (tokenize (String.data "hello world")) 0 =
      tokenize (String.data "hello world") := by decide

theorem score_hw :
    offsetScore (tokenize (String.data "hello world"))
      [String.data "hello", String.data "world"] 0 = 1 := by
  unfold offsetScore
  have h0 : ((List.range [String.data "hello", String.data "world"].length).map (fun ai =>
      let scriptWord := (((tokenize (String.data "hello world"))[0 + ai]?).map
        (fun t => t.normalized)).getD []
      let spoken := [String.data "hello", String.data "world"].getD ai []
      if scriptWord.length < MIN_MATCH_LEN ∧ spoken ≠ scriptWord then 0
      else wordSimilarity spoken scriptWord)) = [1, 1] := by decide
  rw [h0]
  norm_num

theorem adv_hw :
    advanceCursor [String.data "hello", String.data "world"]
      (tokenize (String.data "hello world")) 0 = 1 := by
  unfold advanceCursor
  rw [anchor_hw, window_hw]
  rw [if_neg (by decide)]
  have hrange : List.range ((tokenize (String.data "hello world")).length + 1 -
      [String.data "hello", String.data "world"].length) = [0] := by decide
  rw [hrange, searchLoop_cons, score_hw]
  rw [if_pos (by norm_num)]
  rw [searchLoop_nil]
  decide

theorem cand_hw :
    ingestCandidate (setScript initState (String.data "hello world"))
      (String.data "hello world") = 1 := by
  unfold ingestCandidate
  have h1 : lastN 20 ((setScript initState (String.data "hello world")).spokenBuffer ++
      splitWords (trim (String.data "hello world"))) =
      [String.data "hello", String.data "world"] := by decide
  have h2 : (setScript initState (String.data "hello world")).tokens =
      tokenize (String.data "hello world") := rfl
  have h3 : Int.toNat (max 0 (setScript initState (String.data "hello world")).cursor)
      = 0 := by decide
  rw [h1, h2, h3, adv_hw]

theorem final_hw_complete :
    (processSpeech (setScript initState (String.data "hello world"))
      (String.data "hello world") true).complete = true := by
  rw [processSpeech_complete_final]
  rw [if_pos ⟨by decide, by decide, by rw [cand_hw]; decide⟩]

theorem buffer_final_after_interim (s : TrackerState) (u t : List Char) :
    (processSpeech (processSpeech s u false) t true).spokenBuffer =
      (processSpeech s t true).spokenBuffer := by
  rw [processSpeech_buffer_final, processSpeech_buffer_final,
    processSpeech_tokens, processSpeech_buffer_interim]

theorem wordSimilarity_empty (a b : List Char) (h : a = [] ∨ b = []) :
    wordSimilarity a b = 0 := by
  rcases h with h | h <;> simp [wordSimilarity, h]

theorem wordSimilarity_self (a : List Char) (h : a ≠ []) :
    wordSimilarity a a = 1 := by
  cases a with
  | nil => exact absurd rfl h
  | cons c l => simp [wordSimilarity]

theorem wordSimilarity_formula (a b : List Char) (ha : a ≠ []) (hb : b ≠ []) :
    wordSimilarity a b =
      1 - (levenshtein a b : ℚ) / (max a.length b.length : ℚ) := by
  have hae : a.isEmpty = false := by cases a with
    | nil => exact absurd rfl ha
    | cons c l => rfl
  have hbe : b.isEmpty = false := by cases b with
    | nil => exact absurd rfl hb
    | cons c l => rfl
  unfold wordSimilarity
  rw [hae, hbe]
  simp only [Bool.or_false, if_neg (by simp : ¬ (false = true))]
  by_cases hab : a = b
  · subst hab
    have hlev : levenshtein a a = 0 := by
      unfold levenshtein
      rw [if_pos rfl]
    rw [if_pos rfl, hlev]
    simp
  · rw [if_neg hab]
    have hmax : ¬ (max a.length b.length = 0) := by
      have : 0 < a.length := List.length_pos.mpr ha
      omega
    simp only [if_neg hmax]
    rw [Nat.cast_max]

/-! ### Claim theorems -/

/-- C1: for every list of spoken words, every token sequence and every
cursorStart, the source's `advanceCursor` returns exactly the result of
the reference Window Search algorithm (same window, anchor of the last
up to 3 normalized spoken words with empties dropped, per-offset
averaged scores with the short-token skip rule, best offset under
strict `>` above the confidence threshold with first-offset tie-break,
result `windowStart + wi + anchorLength - 1`, else `cursorStart`). -/
theorem C1_advanceCursor_matches_reference :
    ∀ (spokenWords : List (List Char)) (tokens : List ScriptToken)
      (cursorStart : Nat),
      advanceCursor spokenWords tokens cursorStart =
        advanceCursorRef spokenWords tokens cursorStart :=
  advanceCursor_eq_advanceCursorRef

/-- C2: every `ingestSpeech` call commits the Window Search candidate as
the new cursor exactly when the guards pass and the candidate strictly
exceeds the previous cursor, and otherwise leaves the cursor unchanged;
consequently the cursor is non-decreasing over any sequence of
`ingestSpeech` calls with no intervening jump/reset/load. -/
theorem C2_cursor_monotone_commit :
    (∀ (s : TrackerState) (t : List Char) (f : Bool),
      (processSpeech s t f).cursor =
        if s.tokens.length ≠ 0 ∧ (splitWords (trim t)).length ≠ 0 ∧
            ((ingestCandidate s t : Int) > s.cursor)
        then (ingestCandidate s t : Int) else s.cursor) ∧
    (∀ (s : TrackerState) (calls : List (List Char × Bool)),
      s.cursor ≤ (calls.foldl (fun st c => processSpeech st c.1 c.2) s).cursor) :=
  ⟨processSpeech_cursor, fun s calls => cursor_mono_calls calls s⟩

/-- C3 counterexample: an interim `ingestSpeech` call can leave the
cursor at `tokens.length - 1` with `complete` still `false`, so it is
not the case that every call that leaves the cursor at the last token
has `complete = true` afterwards. -/
theorem C3_counterexample :
    (processSpeech (setScript initState (String.data "hello world"))
        (String.data "hello world") false).cursor =
      ((processSpeech (setScript initState (String.data "hello world"))
        (String.data "hello world") false).tokens.length : Int) - 1 ∧
    (processSpeech (setScript initState (String.data "hello world"))
        (String.data "hello world") false).complete = false := by
  constructor
  · rw [processSpeech_tokens, processSpeech_cursor]
    rw [cand_hw]
    rw [if_pos ⟨by decide, by decide, by decide⟩]
    decide
  · rw [processSpeech_complete_interim]
    rfl

/-- C3 amended: `complete` is changed only by final `ingestSpeech` calls
(set) and cleared by jump/reset/load; an interim call never changes
`complete`, even when it moves the cursor to the last token; a final
call (past the guards) sets `complete` exactly when the Window Search
candidate is at least `tokens.length - 1`, and when this first sets
`complete` the cursor afterwards equals `tokens.length - 1` (given the
cursor-boundedness invariant). -/
theorem C3_amended_completion :
    (∀ (s : TrackerState) (t : List Char),
      (processSpeech s t false).complete = s.complete) ∧
    (∀ (s : TrackerState) (t : List Char),
      (processSpeech s t true).complete =
        if s.tokens.length ≠ 0 ∧ (splitWords (trim t)).length ≠ 0 ∧
            ((ingestCandidate s t : Int) ≥ (s.tokens.length : Int) - 1)
        then true else s.complete) ∧
    (∀ (s : TrackerState) (t : List Char), Inv s →
      (processSpeech s t true).complete = true → s.complete = false →
      (processSpeech s t true).cursor = (s.tokens.length : Int) - 1) ∧
    (∀ (s : TrackerState) (i : Int) (text : List Char),
      (jumpTo s i).complete = false ∧ (reset s).complete = false ∧
        (setScript s text).complete = false) :=
  ⟨processSpeech_complete_interim, processSpeech_complete_final,
   processSpeech_final_complete_cursor, fun _ _ _ => ⟨rfl, rfl, rfl⟩⟩

/-- C3 witness: a completing final call on a two-word script ends with
the cursor on the last token. -/
theorem C3_amended_completion_witness :
    (processSpeech (setScript initState (String.data "hello world"))
        (String.data "hello world") true).cursor =
      (((setScript initState (String.data "hello world")).tokens.length : Int) - 1) :=
  C3_amended_completion.2.2.1 _ _ (by decide) final_hw_complete rfl

/-- C4: the similarity scorer returns 0 when either input is empty,
1 on every non-empty word compared with itself, and otherwise
`1 - levenshtein(a,b) / max(len a, len b)` where `levenshtein` agrees
with the textbook edit distance, so the result always lies in [0, 1]. -/
theorem C4_wordSimilarity_contract :
    (∀ a b : List Char, a = [] ∨ b = [] → wordSimilarity a b = 0) ∧
    (∀ a : List Char, a ≠ [] → wordSimilarity a a = 1) ∧
    (∀ a b : List Char, a ≠ [] → b ≠ [] →
      wordSimilarity a b =
        1 - (levenshtein a b : ℚ) / (max a.length b.length : ℚ)) ∧
    (∀ a b : List Char, levenshtein a b = levSpec a b) ∧
    (∀ a b : List Char, 0 ≤ wordSimilarity a b ∧ wordSimilarity a b ≤ 1) :=
  ⟨wordSimilarity_empty, wordSimilarity_self, wordSimilarity_formula,
   levenshtein_eq_levSpec,
   fun a b => ⟨wordSimilarity_nonneg a b, wordSimilarity_le_one a b⟩⟩

/-- C4 witness: the contract evaluated at concrete words. -/
theorem C4_wordSimilarity_contract_witness :
    wordSimilarity [] (String.data "a") = 0 ∧
    wordSimilarity (String.data "their") (String.data "their") = 1 ∧
    wordSimilarity (String.data "their") (String.data "there") =
      1 - (levenshtein (String.data "their") (String.data "there") : ℚ) /
        (max (String.data "their").length (String.data "there").length : ℚ) :=
  ⟨C4_wordSimilarity_contract.1 _ _ (Or.inl rfl),
   C4_wordSimilarity_contract.2.1 _ (by decide),
   C4_wordSimilarity_contract.2.2.1 _ _ (by decide) (by decide)⟩

/-- C5 counterexample: the spoken buffer stores the raw whitespace-split
words of a final update, not their normalized forms ("Hello" is stored
as "Hello", whose normalization is "hello"). -/
theorem C5_counterexample :
    ¬ (∀ w ∈ (processSpeech (setScript initState (String.data "hello world"))
        (String.data "Hello world") true).spokenBuffer, normalize w = w) := by
  rw [processSpeech_buffer_final, if_pos ⟨by decide, by decide⟩]
  decide

/-- C5 amended: `spokenHistory` holds the raw whitespace-split words of
final updates, in order (normalization is applied only when the anchor
is built); it holds at most 20 words with the oldest evicted first;
interim updates never modify it; and a final update's alignment input
is the spoken history plus its own words only, unaffected by any
preceding interim fragment. -/
theorem C5_amended_spokenHistory :
    (∀ (s : TrackerState) (t : List Char),
      (processSpeech s t false).spokenBuffer = s.spokenBuffer) ∧
    (∀ (s : TrackerState) (t : List Char),
      (processSpeech s t true).spokenBuffer =
        if s.tokens.length ≠ 0 ∧ (splitWords (trim t)).length ≠ 0
        then lastN 20 (s.spokenBuffer ++ splitWords (trim t))
        else s.spokenBuffer) ∧
    (∀ ops : List Op, (applyOps initState ops).spokenBuffer.length ≤ 20) ∧
    (∀ (s : TrackerState) (u t : List Char),
      (processSpeech (processSpeech s u false) t true).spokenBuffer =
        (processSpeech s t true).spokenBuffer) :=
  ⟨processSpeech_buffer_interim, processSpeech_buffer_final,
   fun ops => spokenBuffer_le_20 ops initState (by decide),
   buffer_final_after_interim⟩

/-- C6: starting from the fresh session, under the caller contract that
every `jumpTo` index is within `[0, tokens.length - 1]`, the cursor
stays in `[-1, tokens.length - 1]` after every operation sequence; and
from any state satisfying the invariant with a non-empty script, the
Window Search candidate of an `ingestSpeech` call never exceeds
`tokens.length - 1`. -/
theorem C6_cursor_bounded :
    (∀ ops : List Op, validOps initState ops = true →
      Inv (applyOps initState ops)) ∧
    (∀ (s : TrackerState) (t : List Char), Inv s → s.tokens ≠ [] →
      (ingestCandidate s t : Int) ≤ (s.tokens.length : Int) - 1) :=
  ⟨fun ops hv => Inv_applyOps ops initState (by decide) hv,
   fun s t h hne => by
    have hc := ingestCandidate_le s t h hne
    have hlen : 0 < s.tokens.length :=
      Nat.pos_of_ne_zero (fun h0 => hne (List.length_eq_zero.mp h0))
    omega⟩

/-- C6 witness: a concrete in-contract operation sequence keeps the
cursor in bounds, and a concrete in-bounds state yields an in-bounds
candidate. -/
theorem C6_cursor_bounded_witness :
    Inv (applyOps initState
      [Op.load (String.data "hi there"), Op.jump 1,
       Op.ingest (String.data "zz") true, Op.resetOp]) ∧
    (ingestCandidate (jumpTo (setScript initState (String.data "hi there")) 1)
        (String.data "hi") : Int) ≤
      (((jumpTo (setScript initState (String.data "hi there")) 1).tokens.length :
        Int) - 1) :=
  ⟨C6_cursor_bounded.1 _ (by decide),
   C6_cursor_bounded.2 _ _ (by decide) (by decide)⟩

/-- C7: an `ingestSpeech` call with no script loaded, or whose
transcript has no words after trimming and whitespace splitting, leaves
the entire session state unchanged, for both final and interim
updates. -/
theorem C7_ingest_noop :
    ∀ (s : TrackerState) (t : List Char) (f : Bool),
      s.tokens = [] ∨ splitWords (trim t) = [] → processSpeech s t f = s :=
  processSpeech_noop

/-- C7 witness: a whitespace-only transcript on a loaded script and a
real transcript on an empty session are both no-ops. -/
theorem C7_ingest_noop_witness :
    processSpeech (setScript initState (String.data "hello world"))
        (String.data "   ") true =
      setScript initState (String.data "hello world") ∧
    processSpeech initState (String.data "hello") false = initState :=
  ⟨C7_ingest_noop _ _ _ (Or.inr (by decide)),
   C7_ingest_noop _ _ _ (Or.inl rfl)⟩

/-- C8 counterexample: an interim update stores the raw transcript words
in `interimWords`, not their normalized forms. -/
theorem C8_counterexample :
    (processSpeech (setScript initState (String.data "hello world"))
        (String.data "Hello") false).interimWords ≠
      (splitWords (trim (String.data "Hello"))).map normalize := by
  rw [processSpeech_interimWords_interim, if_pos ⟨by decide, by decide⟩]
  decide

/-- C8 amended: `interimWords` holds exactly the raw whitespace-split
words of the most recent interim update that passed the guards,
replaced wholesale (never accumulated); it is emptied by every final
update that passes the guards and by every jump, reset or script
load. -/
theorem C8_amended_interimWords :
    (∀ (s : TrackerState) (t : List Char),
      (processSpeech s t false).interimWords =
        if s.tokens.length ≠ 0 ∧ (splitWords (trim t)).length ≠ 0
        then splitWords (trim t) else s.interimWords) ∧
    (∀ (s : TrackerState) (t : List Char),
      (processSpeech s t true).interimWords =
        if s.tokens.length ≠ 0 ∧ (splitWords (trim t)).length ≠ 0
        then [] else s.interimWords) ∧
    (∀ (s : TrackerState) (i : Int) (text : List Char),
      (jumpTo s i).interimWords = [] ∧ (reset s).interimWords = [] ∧
        (setScript s text).interimWords = []) :=
  ⟨processSpeech_interimWords_interim, processSpeech_interimWords_final,
   fun _ _ _ => ⟨rfl, rfl, rfl⟩⟩

/-- C9: the tokenizer produces exactly the whitespace-delimited
non-empty substrings of the text (the maximal non-whitespace runs), in
order, with the i-th token's position equal to i and its normalized
form equal to `normalize` of its surface word; in particular the token
count equals the count of such substrings. -/
theorem C9_tokenize_spec :
    ∀ text : List Char,
      tokenize text =
        (wordsOf text).enum.map (fun p => ⟨p.2, normalize p.2, p.1⟩) ∧
      (tokenize text).length = (wordsOf text).length := by
  intro text
  constructor
  · unfold tokenize
    rw [splitWords_eq_wordsOf]
  · unfold tokenize
    rw [splitWords_eq_wordsOf, List.length_map, List.enum_length]

/-- C10: the similarity scorer is symmetric in its two arguments. -/
theorem C10_wordSimilarity_symmetric :
    ∀ a b : List Char, wordSimilarity a b = wordSimilarity b a :=
  wordSimilarity_symm

end Teleprompter
